import Mathlib

/-!
Sphere mesh generation and the animation clock of ggsample07.

A shallow embedding of `src/ggsample07.cpp`.

* `makeSphere` is the mesh generator.  The three output arrays `pv`, `nv` and
  `f` are reached through raw pointers in the source, so each of them is
  modelled by its write log: the list of `(slot, row)` pairs in the order in
  which the rows are assigned.  `readSlot` gives the content of a slot after
  the run (the last write to that slot).
* The `float` operations are kept abstract: the generator is polymorphic in
  the scalar type `F` and takes `cos` and `sin` as arguments, so no rounding
  behaviour is assumed.  Claims about exact arithmetic instantiate `F` with
  the real numbers.
* The `int` loop counters and indices only count upwards from zero; they are
  modelled by natural numbers, which is exact as long as
  `(slices + 1) * (stacks + 1)` and `slices * stacks * 2` fit in an `int`.
* The time computation of the frame loop is modelled over an ordered field
  with a floor function (the rationals for evaluation, the reals for the
  statements), with `glfwGetTime()` as its input.  The `double` division, the
  conversion to `float`, the `float` literal and the `float` product of source
  lines 155 and 158 are rounded to the nearest value of their format, ties to
  even.
-/

namespace Ggsample07

/-! Constants of the program -/

/-- Animation period in seconds: `const double cycle(5.0)`. -/
def cycle {K : Type} [OfScientific K] : K := 5.0

/-- Number of longitudinal subdivisions: `const int slices(64)`. -/
def slices : Nat := 64

/-- Number of latitudinal subdivisions: `const int stacks(32)` (`stacks` is a
reserved word here, hence the underscore). -/
def stacks_ : Nat := 32

/-- Vertex count: `const int vertices((slices + 1) * (stacks + 1))`. -/
def vertices : Nat := (slices + 1) * (stacks_ + 1)

/-- Triangle count: `const int faces(slices * stacks * 2)`. -/
def faces : Nat := slices * stacks_ * 2

/-! Data model -/

/-- One row of an array of type `T (*)[3]`. -/
structure Vec3 (α : Type) where
  c0 : α
  c1 : α
  c2 : α
deriving DecidableEq

/-- State of the first loop nest of `makeSphere`: the running slot `k` and the
write logs of `pv` and `nv`. -/
structure VertexState (F : Type) where
  k : Nat
  pv : List (Nat × Vec3 F)
  nv : List (Nat × Vec3 F)

/-- State of the second loop nest of `makeSphere`: the running slot `k` and the
write log of `f`. -/
structure FaceState where
  k : Nat
  f : List (Nat × Vec3 Nat)
deriving DecidableEq

/-- What `makeSphere` leaves behind: the write logs of its three output
arrays. -/
structure Mesh (F : Type) where
  pv : List (Nat × Vec3 F)
  nv : List (Nat × Vec3 F)
  f : List (Nat × Vec3 Nat)

/-- Content of slot `k` of an array after the writes of `log`: the value of
the last write to `k`, or `none` when the slot was never written. -/
def readSlot {α : Type} (log : List (Nat × α)) (k : Nat) : Option α :=
  log.reverse.lookup k

/-! makeSphere -/

section Generator

variable {F : Type} [Mul F] [Div F] [Neg F] [NatCast F] [OfScientific F]

/-- Body of the inner vertex loop (source lines 37-52) for longitude `i`, with
`y` and `r` computed by the enclosing iteration. -/
def vertexBody (cos sin : F → F) (PI radius : F) (slices : Nat) (y r : F)
    (st : VertexState F) (i : Nat) : VertexState F :=
  let s : F := (i : F) / (slices : F)
  let th : F := -2.0 * PI * s
  let x : F := r * cos th
  let z : F := r * sin th
  { k := st.k + 1
    pv := st.pv ++ [(st.k, ⟨x * radius, y * radius, z * radius⟩)]
    nv := st.nv ++ [(st.k, ⟨x, y, z⟩)] }

/-- Body of the outer vertex loop (source lines 30-53) for latitude `j`:
`for (int i = 0; i <= slices; ++i)`. -/
def vertexRing (cos sin : F → F) (PI radius : F) (slices stacks_ : Nat)
    (st : VertexState F) (j : Nat) : VertexState F :=
  let t : F := (j : F) / (stacks_ : F)
  let ph : F := PI * t
  let y : F := cos ph
  let r : F := sin ph
  (List.range (slices + 1)).foldl (vertexBody cos sin PI radius slices y r) st

/-- First loop nest (source lines 28-54):
`for (int k = 0, j = 0; j <= stacks; ++j)`. -/
def vertexLoop (cos sin : F → F) (PI radius : F) (slices stacks_ : Nat) : VertexState F :=
  (List.range (stacks_ + 1)).foldl (vertexRing cos sin PI radius slices stacks_) ⟨0, [], []⟩

end Generator

/-- Body of the inner face loop (source lines 61-73) for the quad `(i, j)`. -/
def faceBody (slices j : Nat) (st : FaceState) (i : Nat) : FaceState :=
  let count : Nat := (slices + 1) * j + i
  let st1 : FaceState :=
    { k := st.k + 1
      f := st.f ++ [(st.k, ⟨count, count + slices + 2, count + 1⟩)] }
  { k := st1.k + 1
    f := st1.f ++ [(st1.k, ⟨count, count + slices + 1, count + slices + 2⟩)] }

/-- Body of the outer face loop: `for (int i = 0; i < slices; ++i)`. -/
def faceRow (slices : Nat) (st : FaceState) (j : Nat) : FaceState :=
  (List.range slices).foldl (faceBody slices j) st

/-- Second loop nest (source lines 57-75):
`for (int k = 0, j = 0; j < stacks; ++j)`. -/
def faceLoop (slices stacks_ : Nat) : FaceState :=
  (List.range stacks_).foldl (faceRow slices) ⟨0, []⟩

section Generator

variable {F : Type} [Mul F] [Div F] [Neg F] [NatCast F] [OfScientific F]

/-- The function `makeSphere` of the source with its literal `3.141593f` passed
as `PI`. -/
def makeSphereWith (cos sin : F → F) (PI radius : F) (slices stacks_ : Nat) : Mesh F :=
  let vs := vertexLoop cos sin PI radius slices stacks_
  let fs := faceLoop slices stacks_
  { pv := vs.pv, nv := vs.nv, f := fs.f }

/-- The function `makeSphere(radius, slices, stacks, pv, nv, f)` of the
source. -/
def makeSphere (cos sin : F → F) (radius : F) (slices stacks_ : Nat) : Mesh F :=
  makeSphereWith cos sin 3.141593 radius slices stacks_

end Generator

/-! The frame clock of `GgApplication::run` -/

section Clock

variable {K : Type} [LinearOrderedField K] [FloorRing K]

/-- Rounding towards zero, as used by C's `fmod`. -/
def trunc (x : K) : Int := if 0 ≤ x then ⌊x⌋ else ⌈x⌉

/-- C's `fmod(x, y)`: `x - n * y` with `n` the quotient `x / y` rounded
towards zero. -/
def fmod (x y : K) : K := x - (trunc (x / y) : K) * y

/-- Rounding to the nearest integer, ties to the even one. -/
def roundEven (q : K) : Int :=
  if q - (⌊q⌋ : K) < 1 / 2 then ⌊q⌋
  else if 1 / 2 < q - (⌊q⌋ : K) then ⌊q⌋ + 1
  else if ⌊q⌋ % 2 = 0 then ⌊q⌋ else ⌊q⌋ + 1

/-- Rounding of `x` to the nearest value of a binary floating-point format with
`p` significand bits and least normal exponent `emin`, ties to even.  The
format's upper end (overflow to infinity) is not modelled. -/
def roundFloat (p : Nat) (emin : Int) (x : K) : K :=
  if x = 0 then 0
  else
    let e : Int := max (Int.log 2 |x|) emin
    let ulp : K := (2 : K) ^ (e - ((p : Int) - 1))
    (roundEven (x / ulp) : K) * ulp

/-- Conversion to `float` (IEEE binary32). -/
def toFloat (x : K) : K := roundFloat 24 (-126) x

/-- Conversion to `double` (IEEE binary64). -/
def toDouble (x : K) : K := roundFloat 53 (-1022) x

/-- The value `t` of source line 155 when `glfwGetTime()` returns `time`:
`static_cast<float>(fmod(glfwGetTime(), cycle) / cycle)`.  The result of
`fmod` on a `double` is exact; the division is rounded to `double` and the
cast rounds to `float`. -/
def phase (time : K) : K := toFloat (toDouble (fmod time cycle / cycle))

/-- The argument of `rotateX` in source line 158: `12.56637f * t`, the `float`
product of the `float` literal and `t`. -/
def rotationAngle (time : K) : K := toFloat (toFloat 12.56637 * phase time)

end Clock

/-! Closed forms following the spec's words -/

section Generator

variable {F : Type} [Mul F] [Div F] [Neg F] [NatCast F] [OfScientific F]

/-- Normal of the vertex at latitude `j` and longitude `i` as the spec states
it: `(sin φ cos θ, cos φ, sin φ sin θ)` with `φ = PI * (j / stacks)` and
`θ = -2 * PI * (i / slices)`. -/
def specNormal (cos sin : F → F) (PI : F) (slices stacks_ j i : Nat) : Vec3 F :=
  let phi : F := PI * ((j : F) / (stacks_ : F))
  let theta : F := -2.0 * PI * ((i : F) / (slices : F))
  ⟨sin phi * cos theta, cos phi, sin phi * sin theta⟩

/-- Position of the vertex at latitude `j` and longitude `i` as the spec
states it: the normal scaled by `radius`, component by component. -/
def specPosition (cos sin : F → F) (PI radius : F) (slices stacks_ j i : Nat) : Vec3 F :=
  let n := specNormal cos sin PI slices stacks_ j i
  ⟨n.c0 * radius, n.c1 * radius, n.c2 * radius⟩

end Generator

/-- Slot of the vertex at latitude `j` and longitude `i`: rows of
`slices + 1` vertices, ring after ring. -/
def vertexSlot (slices j i : Nat) : Nat := (slices + 1) * j + i

/-- The two triangles of the quad `(i, j)` as the spec states them, with the
face slots `2 * (slices * j + i)` and `2 * (slices * j + i) + 1`. -/
def specQuad (slices j i : Nat) : List (Nat × Vec3 Nat) :=
  let count := (slices + 1) * j + i
  [(2 * (slices * j + i), ⟨count, count + slices + 2, count + 1⟩),
   (2 * (slices * j + i) + 1, ⟨count, count + slices + 1, count + slices + 2⟩)]

/-- The two log entries written by the face loop body for the quad `(i, j)`
when the row started at slot `k0`. -/
def quadWrites (slices j k0 i : Nat) : List (Nat × Vec3 Nat) :=
  [(k0 + 2 * i, ⟨(slices + 1) * j + i, (slices + 1) * j + i + slices + 2,
      (slices + 1) * j + i + 1⟩),
   (k0 + 2 * i + 1, ⟨(slices + 1) * j + i, (slices + 1) * j + i + slices + 1,
      (slices + 1) * j + i + slices + 2⟩)]

/-- The call `makeSphere(1.0f, slices, stacks, pv, nv, face)` of
`GgApplication::run`, with the program's constants. -/
def runMesh {F : Type} [Mul F] [Div F] [Neg F] [NatCast F] [OfScientific F]
    (cos sin : F → F) : Mesh F :=
  makeSphere cos sin 1.0 slices stacks_

/-- The three indices of a triangle, in the order they are stored. -/
def Vec3.corners {α : Type} (t : Vec3 α) : List α := [t.c0, t.c1, t.c2]

/-- The directed edges of a triangle, in the order its indices are stored. -/
def Vec3.edges {α : Type} (t : Vec3 α) : List (α × α) :=
  [(t.c0, t.c1), (t.c1, t.c2), (t.c2, t.c0)]

/-- Grid coordinates `(i, j)` (longitude, latitude) of the vertex stored at
slot `v`. -/
def gridCoord (slices v : Nat) : Int × Int :=
  (((v % (slices + 1) : Nat) : Int), ((v / (slices + 1) : Nat) : Int))

/-- Orientation of a triangle in the `(i, j)` grid: twice its signed area. -/
def orientation (slices : Nat) (t : Vec3 Nat) : Int :=
  let a := gridCoord slices t.c0
  let b := gridCoord slices t.c1
  let c := gridCoord slices t.c2
  (b.1 - a.1) * (c.2 - a.2) - (c.1 - a.1) * (b.2 - a.2)

/-! Loop lemmas -/

/-- The first `m` iterations of the inner face loop. -/
theorem faceBody_fold (slices j : Nat) (st : FaceState) (m : Nat) :
    (List.range m).foldl (faceBody slices j) st =
      { k := st.k + 2 * m
        f := st.f ++ (List.range m).flatMap (quadWrites slices j st.k) } := by
  induction m with
  | zero => simp
  | succ m ih =>
    rw [List.range_succ, List.foldl_append, ih]
    simp only [List.foldl_cons, List.foldl_nil, faceBody, quadWrites, List.flatMap_append,
      List.flatMap_singleton, List.append_assoc, List.singleton_append, List.flatMap_nil,
      List.append_nil, List.flatMap_cons]
    congr 1

/-- Closed form of the inner face loop. -/
theorem faceRow_eq (slices j : Nat) (st : FaceState) :
    faceRow slices st j =
      { k := st.k + 2 * slices
        f := st.f ++ (List.range slices).flatMap (quadWrites slices j st.k) } :=
  faceBody_fold slices j st slices

/-- The first `m` iterations of the outer face loop. -/
theorem faceRow_fold (slices m : Nat) :
    (List.range m).foldl (faceRow slices) ⟨0, []⟩ =
      { k := 2 * slices * m
        f := (List.range m).flatMap
          (fun j => (List.range slices).flatMap (quadWrites slices j (2 * slices * j))) } := by
  induction m with
  | zero => simp
  | succ m ih =>
    rw [List.range_succ, List.foldl_append, ih]
    simp only [List.foldl_cons, List.foldl_nil, faceRow_eq, List.flatMap_append,
      List.flatMap_singleton, List.flatMap_cons, List.flatMap_nil, List.append_nil]
    congr 1

/-- Closed form of the face loop: quad `(i, j)` is written to the face slots
`2 * (slices * j + i)` and `2 * (slices * j + i) + 1`. -/
theorem faceLoop_eq (slices stacks_ : Nat) :
    faceLoop slices stacks_ =
      { k := slices * stacks_ * 2
        f := (List.range stacks_).flatMap
          (fun j => (List.range slices).flatMap (specQuad slices j)) } := by
  unfold faceLoop
  rw [faceRow_fold]
  congr 1
  · ring
  · have h : ∀ j, quadWrites slices j (2 * slices * j) = specQuad slices j := by
      intro j
      funext i
      simp only [quadWrites, specQuad]
      congr 3 <;> ring
    simp only [h]

section Generator

variable {F : Type} [Mul F] [Div F] [Neg F] [NatCast F] [OfScientific F]

/-- The first `m` iterations of the inner vertex loop at latitude `j`, started
in state `st`. -/
theorem vertexBody_fold (cos sin : F → F) (PI radius : F) (slices stacks_ j : Nat)
    (st : VertexState F) (m : Nat) :
    (List.range m).foldl (vertexBody cos sin PI radius slices
        (cos (PI * ((j : F) / (stacks_ : F)))) (sin (PI * ((j : F) / (stacks_ : F))))) st =
      { k := st.k + m
        pv := st.pv ++ (List.range m).map
          (fun i => (st.k + i, specPosition cos sin PI radius slices stacks_ j i))
        nv := st.nv ++ (List.range m).map
          (fun i => (st.k + i, specNormal cos sin PI slices stacks_ j i)) } := by
  induction m with
  | zero => simp
  | succ m ih =>
    rw [List.range_succ, List.foldl_append, ih]
    simp only [List.foldl_cons, List.foldl_nil, vertexBody, specPosition, specNormal,
      List.map_append, List.map_cons, List.map_nil, List.append_assoc]
    rfl

/-- Closed form of the inner vertex loop. -/
theorem vertexRing_eq (cos sin : F → F) (PI radius : F) (slices stacks_ j : Nat)
    (st : VertexState F) :
    vertexRing cos sin PI radius slices stacks_ st j =
      { k := st.k + (slices + 1)
        pv := st.pv ++ (List.range (slices + 1)).map
          (fun i => (st.k + i, specPosition cos sin PI radius slices stacks_ j i))
        nv := st.nv ++ (List.range (slices + 1)).map
          (fun i => (st.k + i, specNormal cos sin PI slices stacks_ j i)) } :=
  vertexBody_fold cos sin PI radius slices stacks_ j st (slices + 1)

/-- The first `m` iterations of the outer vertex loop. -/
theorem vertexRing_fold (cos sin : F → F) (PI radius : F) (slices stacks_ m : Nat) :
    (List.range m).foldl (vertexRing cos sin PI radius slices stacks_) ⟨0, [], []⟩ =
      { k := (slices + 1) * m
        pv := (List.range m).flatMap (fun j => (List.range (slices + 1)).map
          (fun i => (vertexSlot slices j i, specPosition cos sin PI radius slices stacks_ j i)))
        nv := (List.range m).flatMap (fun j => (List.range (slices + 1)).map
          (fun i => (vertexSlot slices j i, specNormal cos sin PI slices stacks_ j i))) } := by
  induction m with
  | zero => simp
  | succ m ih =>
    rw [List.range_succ, List.foldl_append, ih]
    simp only [List.foldl_cons, List.foldl_nil, vertexRing_eq, List.flatMap_append,
      List.flatMap_singleton, List.flatMap_cons, List.flatMap_nil, List.append_nil, vertexSlot]
    rfl

/-- Closed form of the vertex loop: the vertex at latitude `j` and longitude
`i` is written to slot `(slices + 1) * j + i`. -/
theorem vertexLoop_eq (cos sin : F → F) (PI radius : F) (slices stacks_ : Nat) :
    vertexLoop cos sin PI radius slices stacks_ =
      { k := (slices + 1) * (stacks_ + 1)
        pv := (List.range (stacks_ + 1)).flatMap (fun j => (List.range (slices + 1)).map
          (fun i => (vertexSlot slices j i, specPosition cos sin PI radius slices stacks_ j i)))
        nv := (List.range (stacks_ + 1)).flatMap (fun j => (List.range (slices + 1)).map
          (fun i => (vertexSlot slices j i, specNormal cos sin PI slices stacks_ j i))) } :=
  vertexRing_fold cos sin PI radius slices stacks_ (stacks_ + 1)

end Generator

/-! Slots written -/

/-- Rows of `w` consecutive slots, row after row, enumerate `0 .. w * m - 1`. -/
theorem slots_rows {α : Type} (w m : Nat) (g : Nat → Nat → α) :
    ((List.range m).flatMap (fun j => (List.range w).map (fun i => (w * j + i, g j i)))).map
      Prod.fst = List.range (w * m) := by
  induction m with
  | zero => simp
  | succ m ih =>
    rw [List.range_succ, List.flatMap_append, List.map_append, ih, Nat.mul_succ, List.range_add]
    simp [List.flatMap_singleton, Function.comp_def]

/-- The slots written by the quads of one row are `2 * slices * j ..
2 * slices * (j + 1) - 1`, in this order. -/
theorem slots_quadRow (slices j m : Nat) :
    ((List.range m).flatMap (specQuad slices j)).map Prod.fst =
      (List.range (2 * m)).map (fun i => 2 * slices * j + i) := by
  induction m with
  | zero => simp
  | succ m ih =>
    rw [List.range_succ, List.flatMap_append, List.map_append, ih,
      show 2 * (m + 1) = 2 * m + 1 + 1 by ring, List.range_succ, List.range_succ]
    simp only [List.flatMap_singleton, specQuad, List.map_cons, List.map_nil, List.map_append,
      List.append_assoc, List.singleton_append, List.flatMap_cons, List.flatMap_nil,
      List.append_nil]
    congr 2
    · ring
    · congr 1; ring

/-- The face slots written by the first `m` rows of quads are `0 ..
2 * slices * m - 1`, in this order. -/
theorem slots_quads (slices m : Nat) :
    ((List.range m).flatMap (fun j => (List.range slices).flatMap (specQuad slices j))).map
      Prod.fst = List.range (2 * slices * m) := by
  induction m with
  | zero => simp
  | succ m ih =>
    rw [List.range_succ, List.flatMap_append, List.map_append, ih, Nat.mul_succ, List.range_add]
    simp [List.flatMap_singleton, slots_quadRow]

/-- A slot that is written once holds the value written to it. -/
theorem readSlot_of_mem {α : Type} (log : List (Nat × α)) (k : Nat) (v : α)
    (hnd : (log.map Prod.fst).Nodup) (hmem : (k, v) ∈ log) : readSlot log k = some v := by
  induction log using List.reverseRecOn with
  | nil => simp at hmem
  | append_singleton init e ih =>
    obtain ⟨k1, v1⟩ := e
    rw [List.map_append, List.nodup_append] at hnd
    obtain ⟨hinit, -, hdisj⟩ := hnd
    unfold readSlot at ih ⊢
    rw [List.reverse_append, List.reverse_singleton, List.singleton_append, List.lookup_cons]
    rcases List.mem_append.mp hmem with h | h
    · have hk : k ∈ init.map Prod.fst := List.mem_map.mpr ⟨(k, v), h, rfl⟩
      have hne : k ≠ k1 := by
        intro heq
        exact hdisj hk (by simp [heq])
      have hb : (k == k1) = false := by simpa using hne
      rw [hb]
      exact ih hinit h
    · simp only [List.mem_singleton, Prod.mk.injEq] at h
      obtain ⟨rfl, rfl⟩ := h
      simp

/-! The arrays after `makeSphere` -/

section Generator

variable {F : Type} [Mul F] [Div F] [Neg F] [NatCast F] [OfScientific F]

/-- Write log of `pv`. -/
theorem makeSphereWith_pv (cos sin : F → F) (PI radius : F) (slices stacks_ : Nat) :
    (makeSphereWith cos sin PI radius slices stacks_).pv =
      (List.range (stacks_ + 1)).flatMap (fun j => (List.range (slices + 1)).map
        (fun i => (vertexSlot slices j i, specPosition cos sin PI radius slices stacks_ j i))) := by
  simp only [makeSphereWith, vertexLoop_eq]

/-- Write log of `nv`. -/
theorem makeSphereWith_nv (cos sin : F → F) (PI radius : F) (slices stacks_ : Nat) :
    (makeSphereWith cos sin PI radius slices stacks_).nv =
      (List.range (stacks_ + 1)).flatMap (fun j => (List.range (slices + 1)).map
        (fun i => (vertexSlot slices j i, specNormal cos sin PI slices stacks_ j i))) := by
  simp only [makeSphereWith, vertexLoop_eq]

/-- Write log of `f`. -/
theorem makeSphereWith_f (cos sin : F → F) (PI radius : F) (slices stacks_ : Nat) :
    (makeSphereWith cos sin PI radius slices stacks_).f =
      (List.range stacks_).flatMap (fun j => (List.range slices).flatMap (specQuad slices j)) := by
  simp only [makeSphereWith, faceLoop_eq]

/-- Slots of `pv` in the order written. -/
theorem makeSphereWith_pv_slots (cos sin : F → F) (PI radius : F) (slices stacks_ : Nat) :
    (makeSphereWith cos sin PI radius slices stacks_).pv.map Prod.fst =
      List.range ((slices + 1) * (stacks_ + 1)) := by
  rw [makeSphereWith_pv]
  exact slots_rows (slices + 1) (stacks_ + 1) _

/-- Slots of `nv` in the order written. -/
theorem makeSphereWith_nv_slots (cos sin : F → F) (PI radius : F) (slices stacks_ : Nat) :
    (makeSphereWith cos sin PI radius slices stacks_).nv.map Prod.fst =
      List.range ((slices + 1) * (stacks_ + 1)) := by
  rw [makeSphereWith_nv]
  exact slots_rows (slices + 1) (stacks_ + 1) _

/-- Slots of `f` in the order written. -/
theorem makeSphereWith_f_slots (cos sin : F → F) (PI radius : F) (slices stacks_ : Nat) :
    (makeSphereWith cos sin PI radius slices stacks_).f.map Prod.fst =
      List.range (slices * stacks_ * 2) := by
  rw [makeSphereWith_f, slots_quads]
  congr 1
  ring

/-- Content of `pv` at the slot of the vertex `(j, i)`. -/
theorem readSlot_pv (cos sin : F → F) (PI radius : F) (slices stacks_ j i : Nat)
    (hj : j ≤ stacks_) (hi : i ≤ slices) :
    readSlot (makeSphereWith cos sin PI radius slices stacks_).pv (vertexSlot slices j i) =
      some (specPosition cos sin PI radius slices stacks_ j i) := by
  apply readSlot_of_mem
  · rw [makeSphereWith_pv_slots]
    exact List.nodup_range _
  · rw [makeSphereWith_pv]
    exact List.mem_flatMap.mpr ⟨j, List.mem_range.mpr (Nat.lt_succ_of_le hj),
      List.mem_map.mpr ⟨i, List.mem_range.mpr (Nat.lt_succ_of_le hi), rfl⟩⟩

/-- Content of `nv` at the slot of the vertex `(j, i)`. -/
theorem readSlot_nv (cos sin : F → F) (PI radius : F) (slices stacks_ j i : Nat)
    (hj : j ≤ stacks_) (hi : i ≤ slices) :
    readSlot (makeSphereWith cos sin PI radius slices stacks_).nv (vertexSlot slices j i) =
      some (specNormal cos sin PI slices stacks_ j i) := by
  apply readSlot_of_mem
  · rw [makeSphereWith_nv_slots]
    exact List.nodup_range _
  · rw [makeSphereWith_nv]
    exact List.mem_flatMap.mpr ⟨j, List.mem_range.mpr (Nat.lt_succ_of_le hj),
      List.mem_map.mpr ⟨i, List.mem_range.mpr (Nat.lt_succ_of_le hi), rfl⟩⟩

/-- Every entry of the log of `f` belongs to a quad `(i, j)` of the grid. -/
theorem mem_f_iff (cos sin : F → F) (PI radius : F) (slices stacks_ : Nat)
    (e : Nat × Vec3 Nat) :
    e ∈ (makeSphereWith cos sin PI radius slices stacks_).f ↔
      ∃ j, j < stacks_ ∧ ∃ i, i < slices ∧ e ∈ specQuad slices j i := by
  rw [makeSphereWith_f]
  simp only [List.mem_flatMap, List.mem_range]

/-- Content of `f` at a slot written for the quad `(i, j)`. -/
theorem readSlot_f (cos sin : F → F) (PI radius : F) (slices stacks_ j i : Nat)
    (hj : j < stacks_) (hi : i < slices) (e : Nat × Vec3 Nat) (he : e ∈ specQuad slices j i) :
    readSlot (makeSphereWith cos sin PI radius slices stacks_).f e.1 = some e.2 := by
  apply readSlot_of_mem
  · rw [makeSphereWith_f_slots]
    exact List.nodup_range _
  · exact (mem_f_iff cos sin PI radius slices stacks_ e).mpr ⟨j, hj, i, hi, he⟩

/-- Content of the two face slots of the quad `(i, j)`. -/
theorem readSlot_quad (cos sin : F → F) (PI radius : F) (slices stacks_ j i : Nat)
    (hj : j < stacks_) (hi : i < slices) :
    readSlot (makeSphereWith cos sin PI radius slices stacks_).f (2 * (slices * j + i)) =
      some ⟨(slices + 1) * j + i, (slices + 1) * j + i + slices + 2,
        (slices + 1) * j + i + 1⟩ ∧
    readSlot (makeSphereWith cos sin PI radius slices stacks_).f (2 * (slices * j + i) + 1) =
      some ⟨(slices + 1) * j + i, (slices + 1) * j + i + slices + 1,
        (slices + 1) * j + i + slices + 2⟩ := by
  constructor
  · exact readSlot_f cos sin _ radius slices stacks_ j i hj hi
      (2 * (slices * j + i), ⟨(slices + 1) * j + i, (slices + 1) * j + i + slices + 2,
        (slices + 1) * j + i + 1⟩) (by simp [specQuad])
  · exact readSlot_f cos sin _ radius slices stacks_ j i hj hi
      (2 * (slices * j + i) + 1, ⟨(slices + 1) * j + i, (slices + 1) * j + i + slices + 1,
        (slices + 1) * j + i + slices + 2⟩) (by simp [specQuad])

end Generator

/-- Every slot below `(slices + 1) * (stacks + 1)` is the slot of a vertex of
the grid. -/
theorem vertexSlot_surj (slices stacks_ k : Nat) (hk : k < (slices + 1) * (stacks_ + 1)) :
    ∃ j i, j ≤ stacks_ ∧ i ≤ slices ∧ k = vertexSlot slices j i := by
  refine ⟨k / (slices + 1), k % (slices + 1), ?_, ?_, ?_⟩
  · exact Nat.le_of_lt_succ ((Nat.div_lt_iff_lt_mul (Nat.succ_pos slices)).mpr
      (by rw [Nat.mul_comm]; exact hk))
  · exact Nat.le_of_lt_succ (Nat.mod_lt _ (Nat.succ_pos slices))
  · exact (Nat.div_add_mod k (slices + 1)).symm

/-- Grid coordinates of the slot of the vertex `(j, i)`. -/
theorem gridCoord_vertexSlot (slices j i : Nat) (hi : i ≤ slices) :
    gridCoord slices ((slices + 1) * j + i) = ((i : Int), (j : Int)) := by
  unfold gridCoord
  rw [Nat.mul_add_mod, Nat.mod_eq_of_lt (Nat.lt_succ_of_le hi),
    Nat.mul_add_div (Nat.succ_pos _), Nat.div_eq_of_lt (Nat.lt_succ_of_le hi)]
  simp

/-- Orientation of the first triangle of the quad `(i, j)`. -/
theorem orientation_first (slices j i : Nat) (hi : i < slices) :
    orientation slices ⟨(slices + 1) * j + i, (slices + 1) * j + i + slices + 2,
      (slices + 1) * j + i + 1⟩ = -1 := by
  have e1 : (slices + 1) * j + i + slices + 2 = (slices + 1) * (j + 1) + (i + 1) := by ring
  have e2 : (slices + 1) * j + i + 1 = (slices + 1) * j + (i + 1) := by ring
  simp only [orientation]
  rw [e1, e2, gridCoord_vertexSlot slices j i (Nat.le_of_lt hi),
    gridCoord_vertexSlot slices (j + 1) (i + 1) hi, gridCoord_vertexSlot slices j (i + 1) hi]
  push_cast
  ring

/-- Orientation of the second triangle of the quad `(i, j)`. -/
theorem orientation_second (slices j i : Nat) (hi : i < slices) :
    orientation slices ⟨(slices + 1) * j + i, (slices + 1) * j + i + slices + 1,
      (slices + 1) * j + i + slices + 2⟩ = -1 := by
  have e1 : (slices + 1) * j + i + slices + 2 = (slices + 1) * (j + 1) + (i + 1) := by ring
  have e2 : (slices + 1) * j + i + slices + 1 = (slices + 1) * (j + 1) + i := by ring
  simp only [orientation]
  rw [e1, e2, gridCoord_vertexSlot slices j i (Nat.le_of_lt hi),
    gridCoord_vertexSlot slices (j + 1) (i + 1) hi,
    gridCoord_vertexSlot slices (j + 1) i (Nat.le_of_lt hi)]
  push_cast
  ring

/-! Properties of the generated mesh -/

section Generator

variable {F : Type} [Mul F] [Div F] [Neg F] [NatCast F] [OfScientific F]

/-- C1: for `slices ≥ 1` and `stacks ≥ 1` each of the three indices of every
triangle written by `makeSphere` is below `(slices + 1) * (stacks + 1)` and is
a slot of `pv` that `makeSphere` wrote, and some triangle holds the index
`(slices + 1) * (stacks + 1) - 1`, which is therefore the largest one. -/
theorem makeSphere_index_range (cos sin : F → F) (radius : F) (slices stacks_ : Nat)
    (hs : 1 ≤ slices) (ht : 1 ≤ stacks_) :
    (∀ e ∈ (makeSphere cos sin radius slices stacks_).f, ∀ v ∈ e.2.corners,
        v < (slices + 1) * (stacks_ + 1) ∧
        v ∈ (makeSphere cos sin radius slices stacks_).pv.map Prod.fst) ∧
    (∃ e ∈ (makeSphere cos sin radius slices stacks_).f, ∃ v ∈ e.2.corners,
        v = (slices + 1) * (stacks_ + 1) - 1) := by
  unfold makeSphere
  constructor
  · intro e he v hv
    obtain ⟨j, hj, i, hi, hq⟩ := (mem_f_iff cos sin _ radius slices stacks_ e).mp he
    have hlt : v < (slices + 1) * (stacks_ + 1) := by
      have h1 : (slices + 1) * j + (slices + 1) ≤ (slices + 1) * stacks_ := by
        rw [← Nat.mul_succ]
        exact Nat.mul_le_mul_left _ hj
      have h2 : (slices + 1) * (stacks_ + 1) = (slices + 1) * stacks_ + (slices + 1) :=
        Nat.mul_succ _ _
      simp only [specQuad, List.mem_cons, List.mem_singleton, List.not_mem_nil, or_false] at hq
      rcases hq with rfl | rfl <;>
        simp only [Vec3.corners, List.mem_cons, List.mem_singleton, List.not_mem_nil,
          or_false] at hv <;>
        rcases hv with rfl | rfl | rfl <;> omega
    refine ⟨hlt, ?_⟩
    rw [makeSphereWith_pv_slots]
    exact List.mem_range.mpr hlt
  · obtain ⟨s, rfl⟩ : ∃ s, slices = s + 1 := ⟨slices - 1, by omega⟩
    obtain ⟨t, rfl⟩ : ∃ t, stacks_ = t + 1 := ⟨stacks_ - 1, by omega⟩
    refine ⟨(2 * ((s + 1) * t + s), ⟨(s + 1 + 1) * t + s, (s + 1 + 1) * t + s + (s + 1) + 2,
      (s + 1 + 1) * t + s + 1⟩), ?_, (s + 1 + 1) * t + s + (s + 1) + 2, ?_, ?_⟩
    · exact (mem_f_iff cos sin _ radius (s + 1) (t + 1) _).mpr
        ⟨t, Nat.lt_succ_self t, s, Nat.lt_succ_self s, by simp [specQuad]⟩
    · simp [Vec3.corners]
    · have h2 : (s + 1 + 1) * (t + 1 + 1) = (s + 1 + 1) * t + (s + 1 + 1) + (s + 1 + 1) := by
        ring
      omega

/-- Witness for C1 at `slices = 4`, `stacks = 2` over the reals. -/
theorem makeSphere_index_range_witness :
    (1 ≤ 4 ∧ 1 ≤ 2) ∧
    ((∀ e ∈ (makeSphere Real.cos Real.sin 1 4 2).f, ∀ v ∈ e.2.corners,
        v < (4 + 1) * (2 + 1) ∧ v ∈ (makeSphere Real.cos Real.sin 1 4 2).pv.map Prod.fst) ∧
     (∃ e ∈ (makeSphere Real.cos Real.sin 1 4 2).f, ∃ v ∈ e.2.corners,
        v = (4 + 1) * (2 + 1) - 1)) :=
  ⟨⟨by decide, by decide⟩,
    makeSphere_index_range Real.cos Real.sin 1 4 2 (by decide) (by decide)⟩

/-- C2: for `slices ≥ 1` and `stacks ≥ 1` the slots of `pv` and of `nv` that
`makeSphere` writes are `0, …, (slices + 1) * (stacks + 1) - 1`, each once,
the slots of `f` it writes are `0, …, slices * stacks * 2 - 1`, each once, and
nothing else is written; for the constants of the program the counts are 2145
and 4096, the sizes `vertices` and `faces` of the arrays declared in `run`. -/
theorem makeSphere_slots_written (cos sin : F → F) (radius : F) (slices stacks_ : Nat)
    (_hs : 1 ≤ slices) (_ht : 1 ≤ stacks_) :
    ((makeSphere cos sin radius slices stacks_).pv.map Prod.fst =
        List.range ((slices + 1) * (stacks_ + 1)) ∧
     (makeSphere cos sin radius slices stacks_).nv.map Prod.fst =
        List.range ((slices + 1) * (stacks_ + 1)) ∧
     (makeSphere cos sin radius slices stacks_).f.map Prod.fst =
        List.range (slices * stacks_ * 2)) ∧
    ((makeSphere cos sin radius slices stacks_).pv.length = (slices + 1) * (stacks_ + 1) ∧
     (makeSphere cos sin radius slices stacks_).nv.length = (slices + 1) * (stacks_ + 1) ∧
     (makeSphere cos sin radius slices stacks_).f.length = slices * stacks_ * 2) ∧
    (vertices = 2145 ∧ faces = 4096 ∧
     (runMesh cos sin).pv.map Prod.fst = List.range vertices ∧
     (runMesh cos sin).nv.map Prod.fst = List.range vertices ∧
     (runMesh cos sin).f.map Prod.fst = List.range faces) := by
  have hp := makeSphereWith_pv_slots cos sin 3.141593 radius slices stacks_
  have hn := makeSphereWith_nv_slots cos sin 3.141593 radius slices stacks_
  have hf := makeSphereWith_f_slots cos sin 3.141593 radius slices stacks_
  refine ⟨⟨hp, hn, hf⟩, ⟨?_, ?_, ?_⟩, rfl, rfl, ?_, ?_, ?_⟩
  · simpa using congrArg List.length hp
  · simpa using congrArg List.length hn
  · simpa using congrArg List.length hf
  · exact makeSphereWith_pv_slots cos sin 3.141593 1.0 Ggsample07.slices Ggsample07.stacks_
  · exact makeSphereWith_nv_slots cos sin 3.141593 1.0 Ggsample07.slices Ggsample07.stacks_
  · exact makeSphereWith_f_slots cos sin 3.141593 1.0 Ggsample07.slices Ggsample07.stacks_

/-- Witness for C2 at `slices = 4`, `stacks = 2` over the reals. -/
theorem makeSphere_slots_written_witness :
    (1 ≤ 4 ∧ 1 ≤ 2) ∧
    (makeSphere Real.cos Real.sin 1 4 2).pv.map Prod.fst = List.range ((4 + 1) * (2 + 1)) ∧
    (makeSphere Real.cos Real.sin 1 4 2).f.map Prod.fst = List.range (4 * 2 * 2) :=
  ⟨⟨by decide, by decide⟩,
    (makeSphere_slots_written Real.cos Real.sin 1 4 2 (by decide) (by decide)).1.1,
    (makeSphere_slots_written Real.cos Real.sin 1 4 2 (by decide) (by decide)).1.2.2⟩

/-- C3: for `slices ≥ 1`, `stacks ≥ 1`, `j < stacks` and `i < slices`, with
`count = (slices + 1) * j + i`, after `makeSphere` the face slot
`2 * (slices * j + i)` holds `(count, count + slices + 2, count + 1)` and the
face slot `2 * (slices * j + i) + 1` holds
`(count, count + slices + 1, count + slices + 2)`, in this index order. -/
theorem makeSphere_quad_triangles (cos sin : F → F) (radius : F) (slices stacks_ j i : Nat)
    (_hs : 1 ≤ slices) (_ht : 1 ≤ stacks_) (hj : j < stacks_) (hi : i < slices) :
    readSlot (makeSphere cos sin radius slices stacks_).f (2 * (slices * j + i)) =
      some ⟨(slices + 1) * j + i, (slices + 1) * j + i + slices + 2,
        (slices + 1) * j + i + 1⟩ ∧
    readSlot (makeSphere cos sin radius slices stacks_).f (2 * (slices * j + i) + 1) =
      some ⟨(slices + 1) * j + i, (slices + 1) * j + i + slices + 1,
        (slices + 1) * j + i + slices + 2⟩ := by
  exact readSlot_quad cos sin 3.141593 radius slices stacks_ j i hj hi

/-- Witness for C3: the quad `(i, j) = (3, 1)` of the mesh with `slices = 4`
and `stacks = 2`. -/
theorem makeSphere_quad_triangles_witness :
    (1 ≤ 4 ∧ 1 ≤ 2 ∧ 1 < 2 ∧ 3 < 4) ∧
    readSlot (makeSphere Real.cos Real.sin 1 4 2).f (2 * (4 * 1 + 3)) =
      some ⟨(4 + 1) * 1 + 3, (4 + 1) * 1 + 3 + 4 + 2, (4 + 1) * 1 + 3 + 1⟩ ∧
    readSlot (makeSphere Real.cos Real.sin 1 4 2).f (2 * (4 * 1 + 3) + 1) =
      some ⟨(4 + 1) * 1 + 3, (4 + 1) * 1 + 3 + 4 + 1, (4 + 1) * 1 + 3 + 4 + 2⟩ :=
  ⟨⟨by decide, by decide, by decide, by decide⟩,
    makeSphere_quad_triangles Real.cos Real.sin 1 4 2 1 3
      (by decide) (by decide) (by decide) (by decide)⟩

/-- C4 as stated fails: with `slices = 4` and `stacks = 2` the mesh has 15
vertices and 16 triangles, but the face slots 0 and 1 do not hold the
triangles `(0, 7, 1)` and `(0, 6, 7)`. -/
theorem makeSphere_4_2_not_as_stated :
    ¬ ((makeSphere Real.cos Real.sin 1 4 2).pv.length = 15 ∧
       (makeSphere Real.cos Real.sin 1 4 2).f.length = 16 ∧
       readSlot (makeSphere Real.cos Real.sin 1 4 2).f 0 = some ⟨0, 7, 1⟩ ∧
       readSlot (makeSphere Real.cos Real.sin 1 4 2).f 1 = some ⟨0, 6, 7⟩) := by
  intro h
  exact absurd h.2.2.1 (by decide)

/-- C4 (amended): with `slices = 4` and `stacks = 2`, `makeSphere` writes 15
positions, 15 normals and 16 triangles, and the first quad (`j = 0`, `i = 0`),
the face slots 0 and 1, holds the triangles `(0, 6, 1)` and `(0, 5, 6)`. -/
theorem makeSphere_4_2 (cos sin : F → F) (radius : F) :
    (makeSphere cos sin radius 4 2).pv.length = 15 ∧
    (makeSphere cos sin radius 4 2).nv.length = 15 ∧
    (makeSphere cos sin radius 4 2).f.length = 16 ∧
    readSlot (makeSphere cos sin radius 4 2).f 0 = some ⟨0, 6, 1⟩ ∧
    readSlot (makeSphere cos sin radius 4 2).f 1 = some ⟨0, 5, 6⟩ := by
  have hf : (makeSphere cos sin radius 4 2).f = (faceLoop 4 2).f := rfl
  refine ⟨?_, ?_, ?_, by rw [hf]; decide, by rw [hf]; decide⟩
  · simpa using congrArg List.length (makeSphereWith_pv_slots cos sin 3.141593 radius 4 2)
  · simpa using congrArg List.length (makeSphereWith_nv_slots cos sin 3.141593 radius 4 2)
  · simpa using congrArg List.length (makeSphereWith_f_slots cos sin 3.141593 radius 4 2)

/-- C9: for `slices ≥ 1` and `stacks ≥ 1` the vertex at latitude `j ≤ stacks`
and longitude `i ≤ slices` is stored at slot `(slices + 1) * j + i`, where `nv`
holds `(sin φ cos θ, cos φ, sin φ sin θ)` with `φ = PI * (j / stacks)`,
`θ = -2 * PI * (i / slices)` and `PI = 3.141593`; and for the quad `(i, j)`
the corners of the two triangles written for it are the vertices `(i, j)`,
`(i + 1, j + 1)`, `(i + 1, j)` and `(i, j)`, `(i, j + 1)`, `(i + 1, j + 1)`:
`count` is `(i, j)`, `count + 1` is `(i + 1, j)`, `count + slices + 1` is
`(i, j + 1)` and `count + slices + 2` is `(i + 1, j + 1)`. -/
theorem makeSphere_vertex_layout (cos sin : F → F) (radius : F) (slices stacks_ : Nat)
    (_hs : 1 ≤ slices) (_ht : 1 ≤ stacks_) :
    (∀ j i, j ≤ stacks_ → i ≤ slices →
      readSlot (makeSphere cos sin radius slices stacks_).nv ((slices + 1) * j + i) =
        some (specNormal cos sin 3.141593 slices stacks_ j i)) ∧
    (∀ j i, j < stacks_ → i < slices →
      ((slices + 1) * j + i + 1 = vertexSlot slices j (i + 1) ∧
       (slices + 1) * j + i + slices + 1 = vertexSlot slices (j + 1) i ∧
       (slices + 1) * j + i + slices + 2 = vertexSlot slices (j + 1) (i + 1)) ∧
      ∃ t1 t2,
        readSlot (makeSphere cos sin radius slices stacks_).f (2 * (slices * j + i)) = some t1 ∧
        readSlot (makeSphere cos sin radius slices stacks_).f (2 * (slices * j + i) + 1) =
          some t2 ∧
        readSlot (makeSphere cos sin radius slices stacks_).nv t1.c0 =
          some (specNormal cos sin 3.141593 slices stacks_ j i) ∧
        readSlot (makeSphere cos sin radius slices stacks_).nv t1.c1 =
          some (specNormal cos sin 3.141593 slices stacks_ (j + 1) (i + 1)) ∧
        readSlot (makeSphere cos sin radius slices stacks_).nv t1.c2 =
          some (specNormal cos sin 3.141593 slices stacks_ j (i + 1)) ∧
        readSlot (makeSphere cos sin radius slices stacks_).nv t2.c0 =
          some (specNormal cos sin 3.141593 slices stacks_ j i) ∧
        readSlot (makeSphere cos sin radius slices stacks_).nv t2.c1 =
          some (specNormal cos sin 3.141593 slices stacks_ (j + 1) i) ∧
        readSlot (makeSphere cos sin radius slices stacks_).nv t2.c2 =
          some (specNormal cos sin 3.141593 slices stacks_ (j + 1) (i + 1))) := by
  have key : ∀ j i, j ≤ stacks_ → i ≤ slices →
      readSlot (makeSphere cos sin radius slices stacks_).nv ((slices + 1) * j + i) =
        some (specNormal cos sin 3.141593 slices stacks_ j i) := fun j i hj hi =>
    readSlot_nv cos sin 3.141593 radius slices stacks_ j i hj hi
  refine ⟨key, ?_⟩
  intro j i hj hi
  have e1 : (slices + 1) * j + i + 1 = vertexSlot slices j (i + 1) := by
    simp only [vertexSlot]; ring
  have e2 : (slices + 1) * j + i + slices + 1 = vertexSlot slices (j + 1) i := by
    simp only [vertexSlot]; ring
  have e3 : (slices + 1) * j + i + slices + 2 = vertexSlot slices (j + 1) (i + 1) := by
    simp only [vertexSlot]; ring
  obtain ⟨h1, h2⟩ := readSlot_quad cos sin 3.141593 radius slices stacks_ j i hj hi
  refine ⟨⟨e1, e2, e3⟩, _, _, h1, h2, ?_, ?_, ?_, ?_, ?_, ?_⟩
  · exact key j i (Nat.le_of_lt hj) (Nat.le_of_lt hi)
  · show readSlot _ ((slices + 1) * j + i + slices + 2) = _
    rw [e3]
    exact key (j + 1) (i + 1) hj hi
  · show readSlot _ ((slices + 1) * j + i + 1) = _
    rw [e1]
    exact key j (i + 1) (Nat.le_of_lt hj) hi
  · exact key j i (Nat.le_of_lt hj) (Nat.le_of_lt hi)
  · show readSlot _ ((slices + 1) * j + i + slices + 1) = _
    rw [e2]
    exact key (j + 1) i hj (Nat.le_of_lt hi)
  · show readSlot _ ((slices + 1) * j + i + slices + 2) = _
    rw [e3]
    exact key (j + 1) (i + 1) hj hi

/-- Witness for C9 at `slices = 4`, `stacks = 2` over the reals: the vertex
at latitude 1 and longitude 3. -/
theorem makeSphere_vertex_layout_witness :
    (1 ≤ 4 ∧ 1 ≤ 2 ∧ 1 ≤ 2 ∧ 3 ≤ 4) ∧
    readSlot (makeSphere Real.cos Real.sin 1 4 2).nv ((4 + 1) * 1 + 3) =
      some (specNormal Real.cos Real.sin 3.141593 4 2 1 3) :=
  ⟨⟨by decide, by decide, by decide, by decide⟩,
    (makeSphere_vertex_layout Real.cos Real.sin 1 4 2 (by decide) (by decide)).1 1 3
      (by decide) (by decide)⟩

/-- C10: for `slices ≥ 1` and `stacks ≥ 1` every triangle written by
`makeSphere` has three pairwise distinct indices, and the two triangles of a
quad have exactly the corners `count` and `count + slices + 2` in common, the
first running through this edge from `count` to `count + slices + 2` and the
second from `count + slices + 2` to `count`, both with the same non-zero
orientation in the `(i, j)` grid. -/
theorem makeSphere_winding (cos sin : F → F) (radius : F) (slices stacks_ : Nat)
    (hs : 1 ≤ slices) (_ht : 1 ≤ stacks_) :
    (∀ e ∈ (makeSphere cos sin radius slices stacks_).f,
      e.2.c0 ≠ e.2.c1 ∧ e.2.c1 ≠ e.2.c2 ∧ e.2.c0 ≠ e.2.c2) ∧
    (∀ j i, j < stacks_ → i < slices →
      ∃ t1 t2,
        readSlot (makeSphere cos sin radius slices stacks_).f (2 * (slices * j + i)) = some t1 ∧
        readSlot (makeSphere cos sin radius slices stacks_).f (2 * (slices * j + i) + 1) =
          some t2 ∧
        ((slices + 1) * j + i, (slices + 1) * j + i + slices + 2) ∈ t1.edges ∧
        ((slices + 1) * j + i + slices + 2, (slices + 1) * j + i) ∈ t2.edges ∧
        (∀ v, (v ∈ t1.corners ∧ v ∈ t2.corners) ↔
          (v = (slices + 1) * j + i ∨ v = (slices + 1) * j + i + slices + 2)) ∧
        orientation slices t1 = orientation slices t2 ∧ orientation slices t1 ≠ 0) := by
  constructor
  · intro e he
    obtain ⟨j, -, i, -, hq⟩ := (mem_f_iff cos sin _ radius slices stacks_ e).mp he
    simp only [specQuad, List.mem_cons, List.mem_singleton, List.not_mem_nil, or_false] at hq
    rcases hq with rfl | rfl <;> refine ⟨?_, ?_, ?_⟩ <;> simp only [] <;> omega
  · intro j i hj hi
    obtain ⟨h1, h2⟩ := readSlot_quad cos sin 3.141593 radius slices stacks_ j i hj hi
    refine ⟨_, _, h1, h2, ?_, ?_, ?_, ?_, ?_⟩
    · simp [Vec3.edges]
    · simp [Vec3.edges]
    · intro v
      simp only [Vec3.corners, List.mem_cons, List.mem_singleton, List.not_mem_nil, or_false]
      omega
    · rw [orientation_first slices j i hi, orientation_second slices j i hi]
    · rw [orientation_first slices j i hi]
      decide

/-- Witness for C10 at `slices = 4`, `stacks = 2` over the reals. -/
theorem makeSphere_winding_witness :
    (1 ≤ 4 ∧ 1 ≤ 2) ∧
    ∀ e ∈ (makeSphere Real.cos Real.sin 1 4 2).f,
      e.2.c0 ≠ e.2.c1 ∧ e.2.c1 ≠ e.2.c2 ∧ e.2.c0 ≠ e.2.c2 :=
  ⟨⟨by decide, by decide⟩,
    (makeSphere_winding Real.cos Real.sin 1 4 2 (by decide) (by decide)).1⟩

end Generator

/-- C6: for `slices ≥ 1`, `stacks ≥ 1` and every slot
`k < (slices + 1) * (stacks + 1)`, the row of `pv` at `k` is the row of `nv`
at `k` multiplied by `radius`, component by component; hence with
`radius = 1`, in any arithmetic in which multiplying by 1 changes nothing
(IEEE floats, the reals), `makeSphere` writes to `nv` exactly what it writes
to `pv`. -/
theorem makeSphere_position_normal {F : Type} [MulOneClass F] [Div F] [Neg F] [NatCast F]
    [OfScientific F] (cos sin : F → F) (radius : F) (slices stacks_ k : Nat)
    (_hs : 1 ≤ slices) (_ht : 1 ≤ stacks_) (hk : k < (slices + 1) * (stacks_ + 1)) :
    (∃ p n, readSlot (makeSphere cos sin radius slices stacks_).pv k = some p ∧
      readSlot (makeSphere cos sin radius slices stacks_).nv k = some n ∧
      p.c0 = n.c0 * radius ∧ p.c1 = n.c1 * radius ∧ p.c2 = n.c2 * radius) ∧
    (makeSphere cos sin 1 slices stacks_).nv = (makeSphere cos sin 1 slices stacks_).pv := by
  constructor
  · obtain ⟨j, i, hj, hi, rfl⟩ := vertexSlot_surj slices stacks_ k hk
    exact ⟨_, _, readSlot_pv cos sin 3.141593 radius slices stacks_ j i hj hi,
      readSlot_nv cos sin 3.141593 radius slices stacks_ j i hj hi, rfl, rfl, rfl⟩
  · unfold makeSphere
    rw [makeSphereWith_nv, makeSphereWith_pv]
    simp only [specPosition, mul_one]

/-- Witness for C6 at `slices = 4`, `stacks = 2`, `radius = 2` and slot 8 over
the reals. -/
theorem makeSphere_position_normal_witness :
    (1 ≤ 4 ∧ 1 ≤ 2 ∧ 8 < (4 + 1) * (2 + 1)) ∧
    ∃ p n, readSlot (makeSphere Real.cos Real.sin 2 4 2).pv 8 = some p ∧
      readSlot (makeSphere Real.cos Real.sin 2 4 2).nv 8 = some n ∧
      p.c0 = n.c0 * 2 ∧ p.c1 = n.c1 * 2 ∧ p.c2 = n.c2 * 2 :=
  ⟨⟨by decide, by decide, by decide⟩,
    (makeSphere_position_normal Real.cos Real.sin 2 4 2 8
      (by decide) (by decide) (by decide)).1⟩

/-- C7: over the reals with the exact `cos` and `sin`, for every value of the
constant `PI`, every `radius`, `slices ≥ 1`, `stacks ≥ 1` and every slot
`k < (slices + 1) * (stacks + 1)`, the normal written at `k` has squared
length 1 and the position written at `k` has squared length `radius ^ 2`; for
the source's `makeSphere` with `radius = 1` the position has squared length
1. -/
theorem makeSphere_unit_length (PI radius : ℝ) (slices stacks_ k : Nat)
    (_hs : 1 ≤ slices) (_ht : 1 ≤ stacks_) (hk : k < (slices + 1) * (stacks_ + 1)) :
    (∃ p n, readSlot (makeSphereWith Real.cos Real.sin PI radius slices stacks_).pv k = some p ∧
      readSlot (makeSphereWith Real.cos Real.sin PI radius slices stacks_).nv k = some n ∧
      n.c0 ^ 2 + n.c1 ^ 2 + n.c2 ^ 2 = 1 ∧
      p.c0 ^ 2 + p.c1 ^ 2 + p.c2 ^ 2 = radius ^ 2) ∧
    (∃ p, readSlot (makeSphere Real.cos Real.sin 1 slices stacks_).pv k = some p ∧
      p.c0 ^ 2 + p.c1 ^ 2 + p.c2 ^ 2 = 1) := by
  obtain ⟨j, i, hj, hi, rfl⟩ := vertexSlot_surj slices stacks_ k hk
  have hn : ∀ c : ℝ, (specNormal Real.cos Real.sin c slices stacks_ j i).c0 ^ 2 +
      (specNormal Real.cos Real.sin c slices stacks_ j i).c1 ^ 2 +
      (specNormal Real.cos Real.sin c slices stacks_ j i).c2 ^ 2 = 1 := by
    intro c
    simp only [specNormal]
    have h1 := Real.sin_sq_add_cos_sq (c * ((j : ℝ) / (stacks_ : ℝ)))
    have h2 := Real.sin_sq_add_cos_sq (-2.0 * c * ((i : ℝ) / (slices : ℝ)))
    nlinarith [h1, h2]
  have hp : ∀ c r : ℝ, (specPosition Real.cos Real.sin c r slices stacks_ j i).c0 ^ 2 +
      (specPosition Real.cos Real.sin c r slices stacks_ j i).c1 ^ 2 +
      (specPosition Real.cos Real.sin c r slices stacks_ j i).c2 ^ 2 = r ^ 2 := by
    intro c r
    have h := hn c
    simp only [specPosition]
    linear_combination r ^ 2 * h
  refine ⟨⟨_, _, readSlot_pv Real.cos Real.sin PI radius slices stacks_ j i hj hi,
    readSlot_nv Real.cos Real.sin PI radius slices stacks_ j i hj hi, hn PI, hp PI radius⟩,
    _, readSlot_pv Real.cos Real.sin 3.141593 1 slices stacks_ j i hj hi, ?_⟩
  simpa using hp 3.141593 1

/-- Witness for C7 at `slices = 4`, `stacks = 2`, `radius = 3` and slot 8. -/
theorem makeSphere_unit_length_witness :
    (1 ≤ 4 ∧ 1 ≤ 2 ∧ 8 < (4 + 1) * (2 + 1)) ∧
    ∃ p n, readSlot (makeSphereWith Real.cos Real.sin 3.141593 3 4 2).pv 8 = some p ∧
      readSlot (makeSphereWith Real.cos Real.sin 3.141593 3 4 2).nv 8 = some n ∧
      n.c0 ^ 2 + n.c1 ^ 2 + n.c2 ^ 2 = 1 ∧
      p.c0 ^ 2 + p.c1 ^ 2 + p.c2 ^ 2 = 3 ^ 2 :=
  ⟨⟨by decide, by decide, by decide⟩,
    (makeSphere_unit_length 3.141593 3 4 2 8 (by decide) (by decide) (by decide)).1⟩

/-! Properties of the frame clock -/

/-- The constant `cycle` is 5. -/
theorem cycle_eq {K : Type} [LinearOrderedField K] : (cycle : K) = 5 := by
  unfold cycle
  norm_num

section Clock

variable {K : Type} [LinearOrderedField K] [FloorRing K]

/-- A value closer than 1/2 to an integer rounds to that integer. -/
theorem roundEven_eq_of_abs_lt (q : K) (n : Int) (h : |q - (n : K)| < 1 / 2) :
    roundEven q = n := by
  rw [abs_lt] at h
  obtain ⟨hlo, hhi⟩ := h
  unfold roundEven
  rcases le_or_lt (n : K) q with hq | hq
  · have hf : ⌊q⌋ = n := by
      rw [Int.floor_eq_iff]
      constructor <;> linarith
    rw [hf, if_pos (by linarith)]
  · have hf : ⌊q⌋ = n - 1 := by
      rw [Int.floor_eq_iff]
      push_cast
      constructor <;> linarith
    rw [hf]
    push_cast
    rw [if_neg (by linarith), if_pos (by linarith)]
    ring

/-- Integers round to themselves. -/
theorem roundEven_intCast (n : Int) : roundEven (n : K) = n :=
  roundEven_eq_of_abs_lt (n : K) n (by simp)

/-- Rounding to the nearest integer moves a value by at most 1/2. -/
theorem abs_roundEven_sub_le (q : K) : |(roundEven q : K) - q| ≤ 1 / 2 := by
  have h0 := Int.floor_le q
  have h1 := Int.lt_floor_add_one q
  unfold roundEven
  rw [abs_le]
  split_ifs with ha hb hc
  · constructor <;> linarith
  · push_cast
    constructor <;> linarith
  · constructor <;> linarith
  · push_cast
    constructor <;> linarith

/-- Rounding does not pass an integer above the value. -/
theorem roundEven_le (q : K) (N : Int) (h : q ≤ (N : K)) : roundEven q ≤ N := by
  rcases eq_or_lt_of_le h with heq | hlt
  · rw [heq, roundEven_intCast]
  · have hf : ⌊q⌋ < N := Int.floor_lt.mpr hlt
    unfold roundEven
    split_ifs <;> omega

/-- Rounding does not pass an integer below the value. -/
theorem le_roundEven (q : K) (N : Int) (h : (N : K) ≤ q) : N ≤ roundEven q := by
  have hf : N ≤ ⌊q⌋ := Int.le_floor.mpr h
  unfold roundEven
  split_ifs <;> omega

/-- The binary exponent of a value between two consecutive powers of two. -/
theorem log_two_eq (x : K) (e : Int) (h1 : (2 : K) ^ e ≤ x) (h2 : x < (2 : K) ^ (e + 1)) :
    Int.log 2 x = e := by
  have hx : 0 < x := lt_of_lt_of_le (zpow_pos (by norm_num) e) h1
  have ha : e ≤ Int.log 2 x := by
    rw [← Int.zpow_le_iff_le_log (by norm_num) hx]
    simpa using h1
  have hb : Int.log 2 x < e + 1 := by
    rw [← Int.lt_zpow_iff_log_lt (by norm_num) hx]
    simpa using h2
  omega

/-- The binary exponent of a positive value below a power of two. -/
theorem log_two_le (x : K) (E : Int) (hx : 0 < x) (h2 : x < (2 : K) ^ (E + 1)) :
    Int.log 2 x ≤ E := by
  have hb : Int.log 2 x < E + 1 := by
    rw [← Int.lt_zpow_iff_log_lt (by norm_num) hx]
    simpa using h2
  omega

/-- Zero converts to zero. -/
theorem roundFloat_zero (p : Nat) (emin : Int) : roundFloat p emin (0 : K) = 0 := by
  simp [roundFloat]

/-- Conversion of a value with known binary exponent `e` whose quotient by the
unit in the last place is closer than 1/2 to the integer `n`. -/
theorem roundFloat_eq (p : Nat) (emin : Int) (x : K) (e n : Int)
    (h1 : (2 : K) ^ e ≤ |x|) (h2 : |x| < (2 : K) ^ (e + 1)) (he : emin ≤ e)
    (hn : |x / (2 : K) ^ (e - ((p : Int) - 1)) - (n : K)| < 1 / 2) :
    roundFloat p emin x = (n : K) * (2 : K) ^ (e - ((p : Int) - 1)) := by
  have hx : x ≠ 0 := by
    intro h0
    rw [h0, abs_zero] at h1
    exact absurd h1 (not_le.mpr (zpow_pos (by norm_num) e))
  unfold roundFloat
  rw [if_neg hx]
  simp only [log_two_eq |x| e h1 h2, max_eq_left he]
  rw [roundEven_eq_of_abs_lt _ n hn]

/-- Conversion moves a value of magnitude below `2 ^ (E + 1)` by at most half a
unit in the last place of the binade of exponent `E`. -/
theorem abs_roundFloat_sub_le (p : Nat) (emin : Int) (x : K) (E : Int) (hE : emin ≤ E)
    (hx : |x| < (2 : K) ^ (E + 1)) :
    |roundFloat p emin x - x| ≤ (2 : K) ^ (E - ((p : Int) - 1)) / 2 := by
  have hpos : ∀ z : Int, (0 : K) < (2 : K) ^ z := fun z => zpow_pos (by norm_num) z
  rcases eq_or_ne x 0 with h0 | h0
  · rw [h0, roundFloat_zero, sub_zero, abs_zero]
    exact le_of_lt (half_pos (hpos _))
  · unfold roundFloat
    rw [if_neg h0]
    simp only []
    have hle : max (Int.log 2 |x|) emin ≤ E :=
      max_le (log_two_le |x| E (abs_pos.mpr h0) hx) hE
    generalize max (Int.log 2 |x|) emin = e at hle
    have hu : (2 : K) ^ (e - ((p : Int) - 1)) ≤ (2 : K) ^ (E - ((p : Int) - 1)) :=
      zpow_le_zpow_right₀ (by norm_num) (by omega)
    have hu0 := hpos (e - ((p : Int) - 1))
    have hr := abs_roundEven_sub_le (x / (2 : K) ^ (e - ((p : Int) - 1)))
    have heq : (roundEven (x / (2 : K) ^ (e - ((p : Int) - 1))) : K) *
        (2 : K) ^ (e - ((p : Int) - 1)) - x =
        ((roundEven (x / (2 : K) ^ (e - ((p : Int) - 1))) : K) -
          x / (2 : K) ^ (e - ((p : Int) - 1))) * (2 : K) ^ (e - ((p : Int) - 1)) := by
      field_simp
    rw [heq, abs_mul, abs_of_pos hu0]
    calc _ ≤ 1 / 2 * (2 : K) ^ (e - ((p : Int) - 1)) :=
          mul_le_mul_of_nonneg_right hr (le_of_lt hu0)
      _ ≤ (2 : K) ^ (E - ((p : Int) - 1)) / 2 := by linarith

/-- Conversion keeps non-negative values non-negative. -/
theorem roundFloat_nonneg (p : Nat) (emin : Int) (x : K) (hx : 0 ≤ x) :
    0 ≤ roundFloat p emin x := by
  unfold roundFloat
  split_ifs with h0
  · exact le_rfl
  · simp only []
    have hu0 : (0 : K) < (2 : K) ^ (max (Int.log 2 |x|) emin - ((p : Int) - 1)) :=
      zpow_pos (by norm_num) _
    have hq : ((0 : Int) : K) ≤ x / (2 : K) ^ (max (Int.log 2 |x|) emin - ((p : Int) - 1)) := by
      simpa using div_nonneg hx (le_of_lt hu0)
    have hr := le_roundEven _ 0 hq
    exact mul_nonneg (by exact_mod_cast hr) (le_of_lt hu0)

/-- Conversion does not carry a value of `[0, 1]` above 1. -/
theorem roundFloat_le_one (p : Nat) (emin : Int) (x : K) (hp : 1 ≤ p) (hemin : emin ≤ 0)
    (hx0 : 0 ≤ x) (hx1 : x ≤ 1) : roundFloat p emin x ≤ 1 := by
  unfold roundFloat
  split_ifs with h0
  · exact zero_le_one
  · simp only []
    have hxpos : 0 < |x| := abs_pos.mpr h0
    have hlt : |x| < (2 : K) ^ ((0 : Int) + 1) := by
      rw [abs_of_nonneg hx0]
      norm_num
      linarith
    have hle : max (Int.log 2 |x|) emin ≤ 0 := max_le (log_two_le |x| 0 hxpos hlt) hemin
    generalize max (Int.log 2 |x|) emin = e at hle
    have hu0 : (0 : K) < (2 : K) ^ (e - ((p : Int) - 1)) := zpow_pos (by norm_num) _
    obtain ⟨m, hm⟩ : ∃ m : Nat, (m : Int) = ((p : Int) - 1) - e :=
      ⟨(((p : Int) - 1) - e).toNat, Int.toNat_of_nonneg (by omega)⟩
    have hN : (((2 : Int) ^ m : Int) : K) * (2 : K) ^ (e - ((p : Int) - 1)) = 1 := by
      push_cast
      rw [← zpow_natCast, hm, ← zpow_add₀ (by norm_num : (2 : K) ≠ 0)]
      simp
    have hq : x / (2 : K) ^ (e - ((p : Int) - 1)) ≤ (((2 : Int) ^ m : Int) : K) := by
      rw [div_le_iff₀ hu0, hN]
      exact hx1
    have hr : (roundEven (x / (2 : K) ^ (e - ((p : Int) - 1))) : K) ≤
        (((2 : Int) ^ m : Int) : K) := by
      exact_mod_cast roundEven_le _ _ hq
    calc _ ≤ (((2 : Int) ^ m : Int) : K) * (2 : K) ^ (e - ((p : Int) - 1)) :=
          mul_le_mul_of_nonneg_right hr (le_of_lt hu0)
      _ = 1 := hN

/-- A value that is an integer multiple of the unit in the last place of its
binade converts to itself. -/
theorem roundFloat_eq_self (p : Nat) (emin : Int) (x : K) (e n : Int)
    (h1 : (2 : K) ^ e ≤ |x|) (h2 : |x| < (2 : K) ^ (e + 1)) (he : emin ≤ e)
    (hx : x = (n : K) * (2 : K) ^ (e - ((p : Int) - 1))) : roundFloat p emin x = x := by
  have hu0 : (2 : K) ^ (e - ((p : Int) - 1)) ≠ 0 := ne_of_gt (zpow_pos (by norm_num) _)
  have hq : x / (2 : K) ^ (e - ((p : Int) - 1)) = (n : K) := by
    rw [hx]
    field_simp
  rw [roundFloat_eq p emin x e n h1 h2 he (by rw [hq]; simp)]
  exact hx.symm

/-- For a non-negative elapsed time the quotient `fmod(time, cycle) / cycle`
is the fractional part of `time / 5`. -/
theorem quotient_of_nonneg (time : K) (h : 0 ≤ time) :
    fmod time cycle / cycle = Int.fract (time / 5) := by
  have h5 : (0 : K) ≤ time / 5 := div_nonneg h (by norm_num)
  unfold fmod trunc
  rw [cycle_eq, if_pos h5, Int.fract]
  field_simp
  ring

/-- The phase lies in `[0, 1]`. -/
theorem phase_range (time : K) (h : 0 ≤ time) : 0 ≤ phase time ∧ phase time ≤ 1 := by
  unfold phase toFloat toDouble
  rw [quotient_of_nonneg time h]
  have h0 := Int.fract_nonneg (time / 5)
  have h1 := le_of_lt (Int.fract_lt_one (time / 5))
  have d0 := roundFloat_nonneg 53 (-1022) _ h0
  have d1 := roundFloat_le_one 53 (-1022) _ (by norm_num) (by norm_num) h0 h1
  exact ⟨roundFloat_nonneg 24 (-126) _ d0,
    roundFloat_le_one 24 (-126) _ (by norm_num) (by norm_num) d0 d1⟩

/-- The phase at elapsed time 0 is 0. -/
theorem phase_zero : phase (0 : K) = 0 := by
  unfold phase toFloat toDouble
  rw [quotient_of_nonneg 0 le_rfl]
  simp [roundFloat_zero]

/-- The value 1/2 is a `double`. -/
theorem toDouble_half : toDouble (1 / 2 : K) = 1 / 2 := by
  unfold toDouble
  apply roundFloat_eq_self 53 (-1022) (1 / 2 : K) (-1) (2 ^ 52)
  · norm_num [abs_of_pos]
  · norm_num [abs_of_pos]
  · norm_num
  · norm_num

/-- The value 1/2 is a `float`. -/
theorem toFloat_half : toFloat (1 / 2 : K) = 1 / 2 := by
  unfold toFloat
  apply roundFloat_eq_self 24 (-126) (1 / 2 : K) (-1) (2 ^ 23)
  · norm_num [abs_of_pos]
  · norm_num [abs_of_pos]
  · norm_num
  · norm_num

/-- The phase at elapsed time 2.5 is 1/2. -/
theorem phase_half : phase (2.5 : K) = 1 / 2 := by
  have hq : fmod (2.5 : K) cycle / cycle = 1 / 2 := by
    rw [quotient_of_nonneg 2.5 (by norm_num), Int.fract_eq_iff]
    refine ⟨by norm_num, by norm_num, 0, by norm_num⟩
  unfold phase
  rw [hq, toDouble_half, toFloat_half]

/-- The `float` literal `12.56637f`. -/
theorem toFloat_literal : toFloat (12.56637 : K) = 6588397 / 524288 := by
  unfold toFloat
  rw [roundFloat_eq 24 (-126) (12.56637 : K) 3 13176794]
  · norm_num
  · norm_num [abs_of_pos]
  · norm_num [abs_of_pos]
  · norm_num
  · norm_num [abs_lt]

/-- The angle at elapsed time 2.5. -/
theorem rotationAngle_half : rotationAngle (2.5 : K) = 6588397 / 1048576 := by
  unfold rotationAngle
  rw [toFloat_literal, phase_half]
  unfold toFloat
  have hx : (6588397 / 524288 * (1 / 2) : K) = 6588397 / 1048576 := by norm_num
  rw [hx]
  apply roundFloat_eq_self 24 (-126) _ 2 13176794
  · norm_num [abs_of_pos]
  · norm_num [abs_of_pos]
  · norm_num
  · norm_num

/-- The angle at elapsed time 0. -/
theorem rotationAngle_zero : rotationAngle (0 : K) = 0 := by
  unfold rotationAngle
  rw [phase_zero, mul_zero]
  exact roundFloat_zero 24 (-126)

/-- At the elapsed time `5 - 2⁻³⁰` the quotient rounds up to `1.0f`. -/
theorem phase_near_cycle : phase (5 - 1 / 2 ^ 30 : K) = 1 := by
  have hq : fmod (5 - 1 / 2 ^ 30 : K) cycle / cycle = 5368709119 / 5368709120 := by
    rw [quotient_of_nonneg _ (by norm_num), Int.fract_eq_iff]
    refine ⟨by norm_num, by norm_num, 0, by norm_num⟩
  have hd : toDouble (5368709119 / 5368709120 : K) =
      4503599626531635 / 4503599627370496 := by
    unfold toDouble
    rw [roundFloat_eq 53 (-1022) _ (-1) 9007199253063270]
    · norm_num
    · norm_num [abs_of_pos]
    · norm_num [abs_of_pos]
    · norm_num
    · norm_num [abs_lt]
  unfold phase
  rw [hq, hd]
  unfold toFloat
  rw [roundFloat_eq 24 (-126) _ (-1) 16777216]
  · norm_num
  · norm_num [abs_of_pos]
  · norm_num [abs_of_pos]
  · norm_num
  · norm_num [abs_lt]

end Clock

/-- C8 as stated fails: at the elapsed time `5 - 2⁻³⁰` the phase is `1.0f`,
which is not in `[0, 1)`. -/
theorem phase_not_below_one :
    ¬ (phase ((5 - 1 / 2 ^ 30 : ℝ) + cycle) = phase (5 - 1 / 2 ^ 30 : ℝ) ∧
       0 ≤ phase (5 - 1 / 2 ^ 30 : ℝ) ∧ phase (5 - 1 / 2 ^ 30 : ℝ) < 1) := by
  intro h
  have h1 := h.2.2
  rw [phase_near_cycle] at h1
  exact lt_irrefl 1 h1

/-- C8 (amended): for every elapsed time `t ≥ 0`, with `t + cycle` taken over
the reals, `phase (t + cycle) = phase t`; the quotient `fmod(t, cycle) / cycle`
lies in `[0, 1)` and the phase, its conversion to `float`, lies in `[0, 1]`,
the value 1 being reached at the elapsed time `5 - 2⁻³⁰`. -/
theorem phase_periodic (t : ℝ) (ht : 0 ≤ t) :
    phase (t + cycle) = phase t ∧
    (0 ≤ fmod t cycle / cycle ∧ fmod t cycle / cycle < 1) ∧
    (0 ≤ phase t ∧ phase t ≤ 1) ∧
    phase (5 - 1 / 2 ^ 30 : ℝ) = 1 := by
  have h5 : (0 : ℝ) ≤ t + cycle := by
    rw [cycle_eq]
    linarith
  have hq : fmod (t + cycle) cycle / cycle = fmod t cycle / cycle := by
    rw [quotient_of_nonneg t ht, quotient_of_nonneg (t + cycle) h5, cycle_eq]
    have h : (t + 5) / 5 = t / 5 + 1 := by ring
    rw [h, Int.fract_add_one]
  refine ⟨?_, ?_, phase_range t ht, phase_near_cycle⟩
  · unfold phase
    rw [hq]
  · rw [quotient_of_nonneg t ht]
    exact ⟨Int.fract_nonneg _, Int.fract_lt_one _⟩

/-- Witness for C8 (amended) at elapsed time 7. -/
theorem phase_periodic_witness :
    (0 : ℝ) ≤ 7 ∧ phase ((7 : ℝ) + cycle) = phase (7 : ℝ) ∧
      (0 ≤ phase (7 : ℝ) ∧ phase (7 : ℝ) ≤ 1) :=
  ⟨by norm_num, (phase_periodic 7 (by norm_num)).1, (phase_periodic 7 (by norm_num)).2.2.1⟩

/-- C5 as stated fails: at the elapsed time `cycle / 2 = 2.5` the angle passed
to `rotateX` is more than 3 radians away from `2 * π * phase` and more than 3
radians away from every angle congruent to `π` modulo `2 * π`. -/
theorem rotationAngle_half_cycle_not_pi :
    3 < |rotationAngle (2.5 : ℝ) - 2 * Real.pi * phase (2.5 : ℝ)| ∧
    ∀ n : Int, 3 < |rotationAngle (2.5 : ℝ) - (Real.pi + n * (2 * Real.pi))| := by
  have hlo := Real.pi_gt_d6
  have hhi := Real.pi_lt_d6
  rw [rotationAngle_half, phase_half]
  constructor
  · rw [lt_abs]
    left
    norm_num at hlo hhi ⊢
    linarith
  · intro n
    rw [lt_abs]
    rcases le_or_lt n 0 with hn | hn
    · left
      have h1 : (n : ℝ) ≤ 0 := by exact_mod_cast hn
      norm_num at hlo hhi ⊢
      nlinarith
    · right
      have h1 : (1 : ℝ) ≤ n := by exact_mod_cast hn
      norm_num at hlo hhi ⊢
      nlinarith

/-- C5 (amended): the angle passed to `rotateX` is `12.56637f * phase`, which
is `4 * π * phase` to within `10⁻⁵` for every elapsed time `t ≥ 0`; at the
elapsed time 0 it is 0, and at the elapsed time `cycle / 2 = 2.5` (phase 1/2)
it is within `10⁻⁶` of `2 * π`, so congruent to 0 and not to `π`: two turns
per cycle. -/
theorem rotationAngle_two_turns (t : ℝ) (ht : 0 ≤ t) :
    |rotationAngle t - 4 * Real.pi * phase t| < 1 / 100000 ∧
    rotationAngle (0 : ℝ) = 0 ∧
    phase (2.5 : ℝ) = 1 / 2 ∧
    |rotationAngle (2.5 : ℝ) - 2 * Real.pi| < 1 / 1000000 := by
  have hlo := Real.pi_gt_d20
  have hhi := Real.pi_lt_d20
  refine ⟨?_, rotationAngle_zero, phase_half, ?_⟩
  · obtain ⟨p0, p1⟩ := phase_range t ht
    unfold rotationAngle
    rw [toFloat_literal]
    generalize phase t = u at p0 p1
    have hx : |(6588397 / 524288 * u : ℝ)| < (2 : ℝ) ^ ((3 : Int) + 1) := by
      rw [abs_of_nonneg (by positivity)]
      norm_num
      nlinarith
    have hr := abs_roundFloat_sub_le 24 (-126) (6588397 / 524288 * u : ℝ) 3 (by norm_num) hx
    unfold toFloat
    rw [abs_le] at hr
    rw [abs_lt]
    norm_num at hr hlo hhi ⊢
    constructor <;> nlinarith
  · rw [rotationAngle_half, abs_lt]
    norm_num at hlo hhi ⊢
    constructor <;> linarith

/-- Witness for C5 (amended) at elapsed time 7. -/
theorem rotationAngle_two_turns_witness :
    (0 : ℝ) ≤ 7 ∧ |rotationAngle (7 : ℝ) - 4 * Real.pi * phase (7 : ℝ)| < 1 / 100000 :=
  ⟨by norm_num, (rotationAngle_two_turns 7 (by norm_num)).1⟩

end Ggsample07
